import Mathlib

/-!
# A verification development for the same-host crawler (`main.go`)

The program is embedded shallowly.

* A Go `string` is the list of its bytes; a byte is written as the `Char`
  with the same code (`GoString`).
* `Crawler`, `IsVisited`, `Download`, `ExtractLinks` and `Crawl` are
  translated from `main.go`.
* The library functions that decide the behaviour of those functions are
  translated from the sources of the Go standard library (release 1.22):
  `net/url` (`Parse`, `Hostname` and what they call), `path` (`Join`, `Clean`,
  `Base`) and a few functions of `strings`.
* The HTML tokenizer, the network and the filesystem are the environment:
  a page is the sequence of tokens the tokenizer yields for it, and the
  answers of the network and of the filesystem are given by a `World`, each
  answer depending on the URL or path and on all the effects so far.
* The mutex of `Crawler` makes every call of `IsVisited` one atomic step; a
  run of concurrent callers is the sequence of its calls.  The tasks that
  `Crawl` spawns are run one after the other, in the order of the links;
  `Crawl` carries a bound on the depth of its recursion and answers `none`
  when the bound is reached.
-/

deriving instance DecidableEq for Except

namespace CrawlerTest

/-! ## Go strings -/

/-- A Go string: a sequence of bytes, each byte written as a `Char`. -/
abbrev GoString := List Char

/-- The function `strings.HasPrefix`. -/
def hasPrefix (s pre : GoString) : Bool := pre.isPrefixOf s

/-- The function `strings.HasSuffix`. -/
def hasSuffix (s suf : GoString) : Bool := suf.isSuffixOf s

/-- The function `strings.Cut` for a one-byte separator: the text before the
first `sep`, the text after it, and whether `sep` was found. -/
def cutByte (sep : Char) : GoString → GoString × GoString × Bool
  | [] => ([], [], false)
  | c :: cs =>
    if c = sep then ([], cs, true)
    else
      let r := cutByte sep cs
      (c :: r.1, r.2.1, r.2.2)

/-- The split of `s` at `strings.LastIndex(s, sep)` for a one-byte separator:
`some (s[:i], s[i+1:])`, or `none` when `sep` does not occur. -/
def cutLastByte (sep : Char) : GoString → Option (GoString × GoString)
  | [] => none
  | c :: cs =>
    match cutLastByte sep cs with
    | some (a, b) => some (c :: a, b)
    | none => if c = sep then some ([], cs) else none

/-- The split of `s` at `strings.Index(s, pat)`: `some (s[:i], s[i:])`, or
`none` when `pat` does not occur. -/
def cutAtSub (pat : GoString) : GoString → Option (GoString × GoString)
  | [] => if pat = [] then some ([], []) else none
  | c :: cs =>
    if pat.isPrefixOf (c :: cs) then some ([], c :: cs)
    else
      match cutAtSub pat cs with
      | some (a, b) => some (c :: a, b)
      | none => none

/-- The function `strings.Count(s, sep)` for a one-byte separator. -/
def countByte (sep : Char) (s : GoString) : Nat := s.count sep

/-- The function `strings.ToLower` on the bytes of a scheme (ASCII letters,
digits, `+`, `-`, `.`): upper-case ASCII letters are lowered. -/
def toLower (s : GoString) : GoString :=
  s.map fun c => if 'A' ≤ c ∧ c ≤ 'Z' then Char.ofNat (c.toNat + 32) else c

/-! ## Errors -/

/-- Go `error` values the program can meet. -/
inductive GoError where
  /-- An error made by `errors.New` or `fmt.Errorf`, with its message. -/
  | errorString (msg : GoString)
  /-- The type `url.EscapeError`. -/
  | escapeError (s : GoString)
  /-- The type `url.InvalidHostError`. -/
  | invalidHostError (s : GoString)
  /-- The error `fmt.Errorf("invalid port %q after host", colonPort)`. -/
  | invalidPort (colonPort : GoString)
  /-- The type `*url.Error` with its operation, URL and cause. -/
  | urlError (op url : GoString) (err : GoError)
  /-- An error reported by the network or by the filesystem. -/
  | external (msg : GoString)
  deriving DecidableEq, Repr

/-! ## `net/url` -/

/-- The escaping modes of `net/url`. -/
inductive Encoding where
  | encodePath
  | encodePathSegment
  | encodeHost
  | encodeZone
  | encodeUserPassword
  | encodeQueryComponent
  | encodeFragment
  deriving DecidableEq, Repr

open Encoding

/-- The function `ishex` of `net/url`. -/
def ishex (c : Char) : Bool :=
  ('0' ≤ c ∧ c ≤ '9') ∨ ('a' ≤ c ∧ c ≤ 'f') ∨ ('A' ≤ c ∧ c ≤ 'F')

/-- The function `unhex` of `net/url`. -/
def unhex (c : Char) : Nat :=
  if '0' ≤ c ∧ c ≤ '9' then c.toNat - '0'.toNat
  else if 'a' ≤ c ∧ c ≤ 'f' then c.toNat - 'a'.toNat + 10
  else if 'A' ≤ c ∧ c ≤ 'F' then c.toNat - 'A'.toNat + 10
  else 0

/-- The function `shouldEscape` of `net/url`. -/
def shouldEscape (c : Char) (mode : Encoding) : Bool :=
  if ('a' ≤ c ∧ c ≤ 'z') ∨ ('A' ≤ c ∧ c ≤ 'Z') ∨ ('0' ≤ c ∧ c ≤ '9') then false
  else if (mode = encodeHost ∨ mode = encodeZone) ∧
      c ∈ ['!', '$', '&', Char.ofNat 39, '(', ')', '*', '+', ',', ';', '=', ':', '[', ']', '<', '>', '"'] then
    false
  else if c ∈ ['-', '_', '.', '~'] then false
  else if c ∈ ['$', '&', '+', ',', '/', ':', ';', '=', '?', '@'] ∧ mode = encodePath then
    c = '?'
  else if c ∈ ['$', '&', '+', ',', '/', ':', ';', '=', '?', '@'] ∧ mode = encodePathSegment then
    c = '/' ∨ c = ';' ∨ c = ',' ∨ c = '?'
  else if c ∈ ['$', '&', '+', ',', '/', ':', ';', '=', '?', '@'] ∧ mode = encodeUserPassword then
    c = '@' ∨ c = '/' ∨ c = '?' ∨ c = ':'
  else if c ∈ ['$', '&', '+', ',', '/', ':', ';', '=', '?', '@'] ∧ mode = encodeQueryComponent then
    true
  else if c ∈ ['$', '&', '+', ',', '/', ':', ';', '=', '?', '@'] ∧ mode = encodeFragment then
    false
  else if mode = encodeFragment ∧ c ∈ ['!', '(', ')', '*'] then false
  else true

/-- The first loop of `unescape`: every `%` must start a well-formed escape
that the mode admits, and in a host every plain ASCII byte must be one that
needs no escaping. -/
def unescapeCheck (mode : Encoding) : GoString → Except GoError Unit
  | [] => .ok ()
  | c :: cs =>
    if c = '%' then
      match cs with
      | a :: b :: rest =>
        if !ishex a || !ishex b then .error (.escapeError [c, a, b])
        else if mode = encodeHost ∧ unhex a < 8 ∧ [c, a, b] ≠ ['%', '2', '5'] then
          .error (.escapeError [c, a, b])
        else if mode = encodeZone ∧ [c, a, b] ≠ ['%', '2', '5'] ∧
            Char.ofNat (unhex a * 16 + unhex b) ≠ ' ' ∧
            shouldEscape (Char.ofNat (unhex a * 16 + unhex b)) encodeHost then
          .error (.escapeError [c, a, b])
        else unescapeCheck mode rest
      | _ => .error (.escapeError (c :: cs))
    else if c = '+' then unescapeCheck mode cs
    else if (mode = encodeHost ∨ mode = encodeZone) ∧ c.toNat < 128 ∧ shouldEscape c encodeHost then
      .error (.invalidHostError [c])
    else unescapeCheck mode cs

/-- The second loop of `unescape`: every escape is replaced by its byte, and
`+` by a blank in a query component. -/
def unescapeBuild (mode : Encoding) : GoString → GoString
  | [] => []
  | c :: cs =>
    if c = '%' then
      match cs with
      | a :: b :: rest => Char.ofNat (unhex a * 16 + unhex b) :: unescapeBuild mode rest
      | _ => []
    else if c = '+' then
      (if mode = encodeQueryComponent then ' ' else '+') :: unescapeBuild mode cs
    else c :: unescapeBuild mode cs

/-- The function `unescape` of `net/url`. -/
def unescape (s : GoString) (mode : Encoding) : Except GoError GoString :=
  match unescapeCheck mode s with
  | .error e => .error e
  | .ok () => .ok (unescapeBuild mode s)

/-- The function `stringContainsCTLByte` of `net/url`. -/
def stringContainsCTLByte (s : GoString) : Bool :=
  s.any fun b => b < ' ' || b.toNat = 127

/-- The loop of `getScheme`, started at index `i` with `pre` the bytes read so
far (in reverse) and `whole` the entire text. -/
def getSchemeLoop (whole : GoString) : (pre : GoString) → GoString →
    Except GoError (GoString × GoString)
  | _, [] => .ok ([], whole)
  | pre, c :: cs =>
    if ('a' ≤ c ∧ c ≤ 'z') ∨ ('A' ≤ c ∧ c ≤ 'Z') then getSchemeLoop whole (c :: pre) cs
    else if ('0' ≤ c ∧ c ≤ '9') ∨ c = '+' ∨ c = '-' ∨ c = '.' then
      if pre = [] then .ok ([], whole) else getSchemeLoop whole (c :: pre) cs
    else if c = ':' then
      if pre = [] then .error (.errorString "missing protocol scheme".toList)
      else .ok (pre.reverse, cs)
    else .ok ([], whole)

/-- The function `getScheme` of `net/url`: the scheme and the rest. -/
def getScheme (rawURL : GoString) : Except GoError (GoString × GoString) :=
  getSchemeLoop rawURL [] rawURL

/-- The function `validOptionalPort` of `net/url`. -/
def validOptionalPort (port : GoString) : Bool :=
  match port with
  | [] => true
  | c :: digits => c = ':' && digits.all fun b => !(b < '0' || b > '9')

/-- The function `validUserinfo` of `net/url`. -/
def validUserinfo (s : GoString) : Bool :=
  s.all fun r =>
    ('A' ≤ r ∧ r ≤ 'Z') ∨ ('a' ≤ r ∧ r ≤ 'z') ∨ ('0' ≤ r ∧ r ≤ '9') ∨
    r ∈ ['-', '.', '_', ':', '~', '!', '$', '&', Char.ofNat 39, '(', ')', '*', '+', ',', ';', '=', '%', '@']

/-- The function `parseHost` of `net/url`. -/
def parseHost (host : GoString) : Except GoError GoString :=
  if hasPrefix host ['['] then
    match cutLastByte ']' host with
    | none => .error (.errorString "missing ']' in host".toList)
    | some (beforeBracket, colonPort) =>
      if !validOptionalPort colonPort then .error (.invalidPort colonPort)
      else
        match cutAtSub ['%', '2', '5'] beforeBracket with
        | some (part1, part2) =>
          match unescape part1 encodeHost with
          | .error e => .error e
          | .ok host1 =>
            match unescape part2 encodeZone with
            | .error e => .error e
            | .ok host2 =>
              match unescape (']' :: colonPort) encodeHost with
              | .error e => .error e
              | .ok host3 => .ok (host1 ++ host2 ++ host3)
        | none => unescape host encodeHost
  else
    match cutLastByte ':' host with
    | some (_, afterColon) =>
      if !validOptionalPort (':' :: afterColon) then .error (.invalidPort (':' :: afterColon))
      else unescape host encodeHost
    | none => unescape host encodeHost

/-- The type `url.Userinfo`. -/
structure Userinfo where
  username : GoString
  password : GoString
  passwordSet : Bool
  deriving DecidableEq, Repr

/-- The function `parseAuthority` of `net/url`. -/
def parseAuthority (authority : GoString) : Except GoError (Option Userinfo × GoString) :=
  match cutLastByte '@' authority with
  | none =>
    match parseHost authority with
    | .error e => .error e
    | .ok host => .ok (none, host)
  | some (userinfo, hostPart) =>
    match parseHost hostPart with
    | .error e => .error e
    | .ok host =>
      if !validUserinfo userinfo then .error (.errorString "net/url: invalid userinfo".toList)
      else if !(':' ∈ userinfo) then
        match unescape userinfo encodeUserPassword with
        | .error e => .error e
        | .ok name => .ok (some ⟨name, [], false⟩, host)
      else
        match unescape (cutByte ':' userinfo).1 encodeUserPassword with
        | .error e => .error e
        | .ok name =>
          match unescape (cutByte ':' userinfo).2.1 encodeUserPassword with
          | .error e => .error e
          | .ok pw => .ok (some ⟨name, pw, true⟩, host)

/-- The type `url.URL`, without `RawPath` and `RawFragment` (hints for
re-encoding that the program never reads). -/
structure URL where
  Scheme : GoString := []
  Opaque : GoString := []
  User : Option Userinfo := none
  Host : GoString := []
  Path : GoString := []
  OmitHost : Bool := false
  ForceQuery : Bool := false
  RawQuery : GoString := []
  Fragment : GoString := []
  deriving DecidableEq, Repr

/-- The function `parse` of `net/url`, for `viaRequest = false`. -/
def parse (rawURL : GoString) : Except GoError URL :=
  if stringContainsCTLByte rawURL then
    .error (.errorString "net/url: invalid control character in URL".toList)
  else if rawURL = ['*'] then .ok { Path := ['*'] }
  else
    match getScheme rawURL with
    | .error e => .error e
    | .ok (scheme0, rest0) =>
      let scheme := toLower scheme0
      let forceQuery : Bool := hasSuffix rest0 ['?'] && countByte '?' rest0 = 1
      let rest1 := if forceQuery then rest0.dropLast else (cutByte '?' rest0).1
      let rawQuery := if forceQuery then [] else (cutByte '?' rest0).2.1
      if !hasPrefix rest1 ['/'] ∧ scheme ≠ [] then
        .ok { Scheme := scheme, Opaque := rest1, ForceQuery := forceQuery, RawQuery := rawQuery }
      else if !hasPrefix rest1 ['/'] ∧ ':' ∈ (cutByte '/' rest1).1 then
        .error (.errorString "first path segment in URL cannot contain colon".toList)
      else if (scheme ≠ [] ∨ !hasPrefix rest1 ['/', '/', '/']) ∧ hasPrefix rest1 ['/', '/'] then
        let afterSlashes := rest1.drop 2
        let authority := (cutByte '/' afterSlashes).1
        let rest2 := if (cutByte '/' afterSlashes).2.2 then '/' :: (cutByte '/' afterSlashes).2.1 else []
        match parseAuthority authority with
        | .error e => .error e
        | .ok (user, host) =>
          match unescape rest2 encodePath with
          | .error e => .error e
          | .ok path =>
            .ok { Scheme := scheme, User := user, Host := host, Path := path,
                  ForceQuery := forceQuery, RawQuery := rawQuery }
      else
        match unescape rest1 encodePath with
        | .error e => .error e
        | .ok path =>
          .ok { Scheme := scheme, Path := path,
                OmitHost := (decide (scheme ≠ []) && hasPrefix rest1 ['/']),
                ForceQuery := forceQuery, RawQuery := rawQuery }

/-- The function `url.Parse`. -/
def Parse (rawURL : GoString) : Except GoError URL :=
  match parse (cutByte '#' rawURL).1 with
  | .error e => .error (.urlError "parse".toList (cutByte '#' rawURL).1 e)
  | .ok url =>
    if (cutByte '#' rawURL).2.1 = [] then .ok url
    else
      match unescape (cutByte '#' rawURL).2.1 encodeFragment with
      | .error e => .error (.urlError "parse".toList rawURL e)
      | .ok frag => .ok { url with Fragment := frag }

/-- The function `splitHostPort` of `net/url`, its host part. -/
def splitHostPort (hostPort : GoString) : GoString :=
  let host :=
    match cutLastByte ':' hostPort with
    | some (before, after) => if validOptionalPort (':' :: after) then before else hostPort
    | none => hostPort
  if hasPrefix host ['['] && hasSuffix host [']'] then (host.drop 1).dropLast else host

/-- The method `(*URL).Hostname`. -/
def URL.Hostname (u : URL) : GoString := splitHostPort u.Host

/-! ## `path` -/

/-- The backtracking of `path.Clean` at a `..` element: from `w`, step back
while `w` is above `dotdot` and the byte at `w` is not a slash. -/
def cleanBacktrack (buf : GoString) (dotdot : Nat) : Nat → Nat
  | 0 => 0
  | w + 1 =>
    if w + 1 > dotdot ∧ buf.get? (w + 1) ≠ some '/' then cleanBacktrack buf dotdot w
    else w + 1

/-- The loop of `path.Clean`: `rest` is the unread part of the path, `out` the
bytes written so far and `dotdot` the index where `..` must stop.  Every round
reads at least one byte, so the length of the path is enough fuel. -/
def cleanLoop (rooted : Bool) : Nat → GoString → GoString → Nat → GoString
  | 0, _, out, _ => out
  | fuel + 1, rest, out, dotdot =>
    match rest with
    | [] => out
    | c :: cs =>
      if c = '/' then cleanLoop rooted fuel cs out dotdot
      else if c = '.' ∧ (cs = [] ∨ cs.head? = some '/') then cleanLoop rooted fuel cs out dotdot
      else if c = '.' ∧ cs.head? = some '.' ∧ (cs.tail = [] ∨ cs.tail.head? = some '/') then
        if out.length > dotdot then
          cleanLoop rooted fuel cs.tail
            (out.take (cleanBacktrack out dotdot (out.length - 1))) dotdot
        else if !rooted then
          cleanLoop rooted fuel cs.tail
            ((if out.length > 0 then out ++ ['/'] else out) ++ ['.', '.'])
            ((if out.length > 0 then out ++ ['/'] else out) ++ ['.', '.']).length
        else cleanLoop rooted fuel cs.tail out dotdot
      else
        cleanLoop rooted fuel ((c :: cs).dropWhile (· ≠ '/'))
          ((if (rooted ∧ out.length ≠ 1) ∨ (!rooted ∧ out.length ≠ 0) then out ++ ['/'] else out)
            ++ (c :: cs).takeWhile (· ≠ '/'))
          dotdot

/-- The function `path.Clean`. -/
def pathClean (path : GoString) : GoString :=
  if path = [] then ['.']
  else
    let rooted : Bool := path.head? = some '/'
    let out :=
      if rooted then cleanLoop true path.length (path.drop 1) ['/'] 1
      else cleanLoop false path.length path [] 0
    if out = [] then ['.'] else out

/-- The buffer that `path.Join` fills before it cleans it. -/
def joinBuf : List GoString → GoString → GoString
  | [], buf => buf
  | e :: es, buf =>
    if buf.length > 0 ∨ e ≠ [] then
      joinBuf es ((if buf.length > 0 then buf ++ ['/'] else buf) ++ e)
    else joinBuf es buf

/-- The function `path.Join`. -/
def pathJoin (elem : List GoString) : GoString :=
  if (elem.map List.length).sum = 0 then []
  else pathClean (joinBuf elem [])

/-- The function `path.Base`. -/
def pathBase (path : GoString) : GoString :=
  if path = [] then ['.']
  else
    let stripped := (path.reverse.dropWhile (· = '/')).reverse
    let last :=
      match cutLastByte '/' stripped with
      | some (_, after) => after
      | none => stripped
    if last = [] then ['/'] else last

/-! ## The HTML tokenizer, the network and the filesystem -/

/-- The type `html.TokenType`. -/
inductive TokenType where
  | ErrorToken
  | TextToken
  | StartTagToken
  | EndTagToken
  | SelfClosingTagToken
  | CommentToken
  | DoctypeToken
  deriving DecidableEq, Repr

/-- The type `html.Attribute`. -/
structure Attribute where
  Namespace : GoString := []
  Key : GoString
  Val : GoString
  deriving DecidableEq, Repr

/-- The type `html.Token`; its field `Type` is written `Typ`. -/
structure Token where
  Typ : TokenType
  Data : GoString := []
  Attr : List Attribute := []
  deriving DecidableEq, Repr

/-- A page as the tokenizer presents it: the tokens that the successive calls
of `z.Next()` and `z.Token()` yield.  At the end of the list `z.Next()` answers
`ErrorToken`. -/
abbrev Page := List Token

/-- The type `http.Response`, as far as the program reads it. -/
structure Response where
  StatusCode : Nat
  Status : GoString
  Body : GoString
  deriving DecidableEq, Repr

/-- The effects of the program on its environment, in the order they happen. -/
inductive Event where
  /-- A call of `http.Get`. -/
  | httpGet (url : GoString)
  /-- A call of `os.MkdirAll`. -/
  | mkdirAll (dir : GoString)
  /-- A call of `os.Create`. -/
  | create (path : GoString)
  /-- A call of `io.Copy` that writes a response body to the file at `path`. -/
  | copy (path : GoString) (body : GoString)
  /-- A text written to standard output. -/
  | print (text : GoString)
  deriving DecidableEq, Repr

/-- The environment.  Every answer may depend on all the effects that
happened before the call. -/
structure World where
  /-- The answer of `http.Get`. -/
  httpGet : List Event → GoString → Except GoError Response
  /-- The error of `os.MkdirAll`, if any. -/
  mkdirAll : List Event → GoString → Option GoError
  /-- The error of `os.Create`, if any. -/
  create : List Event → GoString → Option GoError
  /-- The error of `io.Copy`, if any. -/
  copy : List Event → GoString → GoString → Option GoError
  /-- The tokens that `html.NewTokenizer` yields for a body. -/
  tokenize : GoString → Page

/-! ## `main.go` -/

/-- The type `Crawler`: the map `visited`, a key that is absent reading as
`false`.  The mutex makes every call of `IsVisited` one atomic step. -/
structure Crawler where
  visited : GoString → Bool

/-- The function `NewCrawler`. -/
def NewCrawler : Crawler := { visited := fun _ => false }

/-- The method `Crawler.IsVisited`: the old entry of `link`, and the crawler
with the entry set. -/
def Crawler.IsVisited (c : Crawler) (link : GoString) : Bool × Crawler :=
  let visited := c.visited link
  (visited, { visited := fun k => if k = link then true else c.visited k })

/-- The variable `dir` of `Download` (line 52). -/
def Download.dir (destDir : GoString) (u : URL) : GoString :=
  pathJoin [destDir, u.Hostname]

/-- The variable `filename` of `Download` (lines 58 to 63). -/
def Download.filename (u : URL) : GoString :=
  if u.Path = [] ∨ hasSuffix u.Path ['/'] then "index.html".toList
  else pathBase u.Path

/-- The variable `filepath` of `Download` (line 65). -/
def Download.filepath (destDir : GoString) (u : URL) : GoString :=
  pathJoin [Download.dir destDir u, Download.filename u]

/-- The function `Download`: its error, and the effects appended to `log`.
The deferred `Close` calls are left out. -/
def Download (w : World) (link destDir : GoString) (log : List Event) :
    Option GoError × List Event :=
  match w.httpGet log link with
  | .error err => (some err, log ++ [.httpGet link])
  | .ok resp =>
    if resp.StatusCode ≠ 200 then
      (some (.errorString ("HTTP status: ".toList ++ resp.Status)), log ++ [.httpGet link])
    else
      match Parse link with
      | .error err => (some err, log ++ [.httpGet link])
      | .ok u =>
        match w.mkdirAll (log ++ [.httpGet link]) (Download.dir destDir u) with
        | some err => (some err, log ++ [.httpGet link, .mkdirAll (Download.dir destDir u)])
        | none =>
          match w.create (log ++ [.httpGet link, .mkdirAll (Download.dir destDir u)])
              (Download.filepath destDir u) with
          | some err =>
            (some err,
              log ++ [.httpGet link, .mkdirAll (Download.dir destDir u),
                .create (Download.filepath destDir u)])
          | none =>
            match w.copy
                (log ++ [.httpGet link, .mkdirAll (Download.dir destDir u),
                  .create (Download.filepath destDir u)])
                (Download.filepath destDir u) resp.Body with
            | some err =>
              (some err,
                log ++ [.httpGet link, .mkdirAll (Download.dir destDir u),
                  .create (Download.filepath destDir u),
                  .copy (Download.filepath destDir u) resp.Body])
            | none =>
              (none,
                log ++ [.httpGet link, .mkdirAll (Download.dir destDir u),
                  .create (Download.filepath destDir u),
                  .copy (Download.filepath destDir u) resp.Body,
                  .print ("Downloaded: ".toList ++ link ++ ['\n'])])

/-- The rewrite of an `href` in `ExtractLinks` (lines 94 to 98). -/
def rewriteLink (pageUrl link : GoString) : GoString :=
  match Parse link with
  | .ok u =>
    if u.Hostname = [] ∧ !hasPrefix u.Path ['#'] then
      u.Scheme ++ "://".toList ++ pageUrl ++ u.Path
    else link
  | .error _ => link

/-- The loop over the attributes of an `a` tag in `ExtractLinks`. -/
def extractAttrs (pageUrl : GoString) : List Attribute → List GoString → List GoString
  | [], links => links
  | attr :: attrs, links =>
    if attr.Key = "href".toList then
      match Parse (rewriteLink pageUrl attr.Val) with
      | .ok u =>
        if u.Hostname = pageUrl then
          extractAttrs pageUrl attrs (links ++ [rewriteLink pageUrl attr.Val])
        else extractAttrs pageUrl attrs links
      | .error _ => extractAttrs pageUrl attrs links
    else extractAttrs pageUrl attrs links

/-- The loop over the tokens in `ExtractLinks`. -/
def extractLoop (pageUrl : GoString) : Page → List GoString → List GoString
  | [], links => links
  | token :: rest, links =>
    if token.Typ = .ErrorToken then links
    else if token.Typ = .StartTagToken ∨ token.Typ = .SelfClosingTagToken then
      if token.Data = ['a'] then extractLoop pageUrl rest (extractAttrs pageUrl token.Attr links)
      else extractLoop pageUrl rest links
    else extractLoop pageUrl rest links

/-- The function `ExtractLinks`; its error is always `nil`. -/
def ExtractLinks (pageUrl : GoString) (page : Page) : List GoString × Option GoError :=
  (extractLoop pageUrl page [], none)

/-- The result of a call of `Crawl`: its error, the crawler and the effects. -/
abbrev CrawlResult := Option GoError × Crawler × List Event

/-- The loop of `Crawl` that starts one task per link and waits for all of
them, in the schedule that runs the tasks one after the other in the order of
the links.  The value a task returns is dropped (line 136). -/
def spawnAll (crawl : GoString → Crawler → List Event → Option CrawlResult) :
    List GoString → Crawler → List Event → Option (Crawler × List Event)
  | [], c, log => some (c, log)
  | link :: links, c, log =>
    match crawl link c log with
    | none => none
    | some r => spawnAll crawl links r.2.1 r.2.2

/-- The function `Crawl`.  The first argument bounds the depth of the
recursion; `none` means that the bound was reached. -/
def Crawl (w : World) (destDir : GoString) :
    Nat → GoString → Crawler → List Event → Option CrawlResult
  | 0, _, _, _ => none
  | fuel + 1, url, c, log =>
    if (c.IsVisited url).1 then some (none, (c.IsVisited url).2, log)
    else
      match Download w url destDir log with
      | (some err, log1) => some (some err, (c.IsVisited url).2, log1)
      | (none, log1) =>
        match w.httpGet log1 url with
        | .error err => some (some err, (c.IsVisited url).2, log1 ++ [.httpGet url])
        | .ok resp =>
          match (ExtractLinks url (w.tokenize resp.Body)).2 with
          | some err => some (some err, (c.IsVisited url).2, log1 ++ [.httpGet url])
          | none =>
            match spawnAll (Crawl w destDir fuel)
                (ExtractLinks url (w.tokenize resp.Body)).1 (c.IsVisited url).2
                (log1 ++ [.httpGet url]) with
            | none => none
            | some r => some (none, r.1, r.2)

/-! ## Runs of the ledger -/

/-- The results of a sequence of `IsVisited` calls on one crawler, in the order
in which the calls take the mutex; each call is one atomic step. -/
def runIsVisited : Crawler → List GoString → List Bool
  | _, [] => []
  | c, u :: us => (c.IsVisited u).1 :: runIsVisited (c.IsVisited u).2 us

/-! ## Specification-side definitions and examples -/

/-- An opening `a` tag whose only attribute is `href`. -/
def anchor (href : GoString) : Token :=
  { Typ := .StartTagToken, Data := ['a'], Attr := [{ Key := "href".toList, Val := href }] }

/-- The page of the scope example: four anchors. -/
def scopePage : Page :=
  [anchor "/a".toList, anchor "https://example.com/b".toList,
   anchor "https://other.com/c".toList, anchor "#frag".toList]

/-- The `href` values of the `a` tags of a page, in document order, up to the
first `ErrorToken`. -/
def anchorHrefs : Page → List GoString
  | [] => []
  | token :: rest =>
    if token.Typ = .ErrorToken then []
    else if (token.Typ = .StartTagToken ∨ token.Typ = .SelfClosingTagToken) ∧ token.Data = ['a'] then
      ((token.Attr.filter fun attr => attr.Key = "href".toList).map fun attr => attr.Val)
        ++ anchorHrefs rest
    else anchorHrefs rest

/-- Whether a link parses as a URL whose hostname is `pageHost`. -/
def inScope (pageHost link : GoString) : Bool :=
  match Parse link with
  | .ok u => u.Hostname = pageHost
  | .error _ => false

/-- A filesystem that never fails, and a network that answers with the
response the table gives for the URL and fails for every URL outside the
table; `pages` gives the tokens of each body. -/
def tableWorld (table : List (GoString × Response)) (pages : List (GoString × Page)) : World where
  httpGet := fun _ url =>
    match table.lookup url with
    | some resp => .ok resp
    | none => .error (.external "no such host".toList)
  mkdirAll := fun _ _ => none
  create := fun _ _ => none
  copy := fun _ _ _ => none
  tokenize := fun body => (pages.lookup body).getD []

/-- Two pages on one host that link to each other. -/
def cycleWorld : World :=
  tableWorld
    [("http://h/a".toList, ⟨200, "200 OK".toList, "A".toList⟩),
     ("http://h/b".toList, ⟨200, "200 OK".toList, "B".toList⟩)]
    [("A".toList, [anchor "http://h/b".toList]),
     ("B".toList, [anchor "http://h/a".toList])]

/-- A page that is served under the name `h` and links to a page that
answers 404. -/
def brokenChildWorld : World :=
  tableWorld
    [("h".toList, ⟨200, "200 OK".toList, "P".toList⟩),
     ("http://h/x".toList, ⟨404, "404 Not Found".toList, [] ⟩)]
    [("P".toList, [anchor "http://h/x".toList])]

/-- A plain path segment: not empty, without a slash, and neither `.` nor
`..`. -/
def plainSegment (s : GoString) : Prop :=
  s ≠ [] ∧ '/' ∉ s ∧ s ≠ ['.'] ∧ s ≠ ['.', '.']

instance (s : GoString) : Decidable (plainSegment s) := by
  unfold plainSegment
  infer_instance

/-- The segments joined by single slashes. -/
def joinSlash : List GoString → GoString
  | [] => []
  | [s] => s
  | s :: t => s ++ '/' :: joinSlash t

/-- A path made of plain segments, with a leading slash when `rooted`. -/
def plainPath (rooted : Bool) (segs : List GoString) : GoString :=
  (if rooted then ['/'] else []) ++ joinSlash segs

/-- The output of the loop of `path.Clean` on plain segments. -/
def cleanSegments (rooted : Bool) (out : GoString) : List GoString → GoString
  | [] => out
  | s :: t =>
    cleanSegments rooted
      ((if (rooted = true ∧ out.length ≠ 1) ∨ ((!rooted) = true ∧ out.length ≠ 0)
          then out ++ ['/'] else out) ++ s) t

/-! ## General facts -/

theorem char_le_iff (a b : Char) : a ≤ b ↔ a.toNat ≤ b.toNat := Iff.rfl

theorem char_ofNat_toNat {n : Nat} (h : n < 256) : (Char.ofNat n).toNat = n := by
  have hv : n.isValidChar := Or.inl (by omega)
  simp only [Char.ofNat, hv, dite_true, Char.toNat, Char.ofNatAux]
  rfl

theorem unhex_le (c : Char) : unhex c ≤ 15 := by
  unfold unhex
  simp only [char_le_iff]
  split_ifs <;> simp at * <;> omega

theorem cutLastByte_eq {sep : Char} {s a b : GoString} (h : cutLastByte sep s = some (a, b)) :
    s = a ++ sep :: b := by
  induction s generalizing a b with
  | nil => simp [cutLastByte] at h
  | cons c cs ih =>
    simp only [cutLastByte] at h
    cases hc : cutLastByte sep cs with
    | some p =>
      obtain ⟨a', b'⟩ := p
      rw [hc] at h
      simp only [Option.some.injEq, Prod.mk.injEq] at h
      obtain ⟨rfl, rfl⟩ := h
      simp [ih hc]
    | none =>
      rw [hc] at h
      by_cases hcs : c = sep
      · simp only [hcs, if_true, Option.some.injEq, Prod.mk.injEq] at h
        obtain ⟨rfl, rfl⟩ := h
        simp [hcs]
      · simp [hcs] at h

/-- The byte of an escape that a host or a zone admits is not a slash. -/
theorem escape_byte_ne_slash (mode : Encoding) (a b : Char)
    (hm : mode = encodeHost ∨ mode = encodeZone)
    (h1 : ¬(mode = encodeHost ∧ unhex a < 8 ∧ ['%', a, b] ≠ ['%', '2', '5']))
    (h2 : ¬(mode = encodeZone ∧ ['%', a, b] ≠ ['%', '2', '5'] ∧
        Char.ofNat (unhex a * 16 + unhex b) ≠ ' ' ∧
        shouldEscape (Char.ofNat (unhex a * 16 + unhex b)) encodeHost = true)) :
    Char.ofNat (unhex a * 16 + unhex b) ≠ '/' := by
  intro hs
  by_cases h25 : ['%', a, b] = ['%', '2', '5']
  · simp only [List.cons.injEq, true_and, and_true] at h25
    obtain ⟨rfl, rfl⟩ := h25
    revert hs
    decide
  · rcases hm with hm | hm
    · have h8 : ¬ unhex a < 8 := fun h => h1 ⟨hm, h, h25⟩
      have hb := unhex_le b
      have ha := unhex_le a
      have := char_ofNat_toNat (n := unhex a * 16 + unhex b) (by omega)
      rw [hs] at this
      have h47 : ('/' : Char).toNat = 47 := by decide
      omega
    · apply h2
      refine ⟨hm, h25, ?_, ?_⟩
      · rw [hs]; decide
      · rw [hs]; decide

theorem unescapeCheck_escape {mode : Encoding} {a b : Char} {rest : GoString}
    (h : unescapeCheck mode ('%' :: a :: b :: rest) = .ok ()) :
    ¬(mode = encodeHost ∧ unhex a < 8 ∧ ['%', a, b] ≠ ['%', '2', '5']) ∧
    ¬(mode = encodeZone ∧ ['%', a, b] ≠ ['%', '2', '5'] ∧
        Char.ofNat (unhex a * 16 + unhex b) ≠ ' ' ∧
        shouldEscape (Char.ofNat (unhex a * 16 + unhex b)) encodeHost = true) ∧
    unescapeCheck mode rest = .ok () := by
  unfold unescapeCheck at h
  simp only [if_true] at h
  split_ifs at h with h1 h2 h3
  exact ⟨h2, h3, h⟩

theorem unescapeCheck_plain {mode : Encoding} {c : Char} {cs : GoString} (hc : c ≠ '%')
    (h : unescapeCheck mode (c :: cs) = .ok ()) :
    (c ≠ '+' → ¬((mode = encodeHost ∨ mode = encodeZone) ∧ c.toNat < 128 ∧
      shouldEscape c encodeHost = true)) ∧
    unescapeCheck mode cs = .ok () := by
  unfold unescapeCheck at h
  simp only [hc, if_false] at h
  split_ifs at h with h1 h2
  · exact ⟨fun hp => absurd h1 hp, h⟩
  · exact ⟨fun _ => h2, h⟩

theorem unescapeBuild_no_slash (mode : Encoding) (hm : mode = encodeHost ∨ mode = encodeZone)
    (s : GoString) (h : unescapeCheck mode s = .ok ()) : '/' ∉ unescapeBuild mode s := by
  induction s using unescapeBuild.induct mode with
  | case1 => simp [unescapeBuild]
  | case2 a b rest ih =>
    obtain ⟨hhost, hzone, h'⟩ := unescapeCheck_escape h
    have hb := escape_byte_ne_slash mode a b hm hhost hzone
    rw [unescapeBuild]
    simp only [if_true, List.mem_cons, not_or]
    exact ⟨fun e => hb e.symm, ih h'⟩
  | case3 cs hshort =>
    rw [unescapeBuild]
    · simp
    · exact hshort
  | case4 cs hne ih =>
    obtain ⟨_, h'⟩ := unescapeCheck_plain hne h
    unfold unescapeBuild
    simp only [hne, if_false, if_true, List.mem_cons, not_or]
    refine ⟨?_, ih h'⟩
    split_ifs <;> decide
  | case5 c cs hc1 hc2 ih =>
    obtain ⟨hok, h'⟩ := unescapeCheck_plain hc1 h
    unfold unescapeBuild
    simp only [hc1, hc2, if_false, List.mem_cons, not_or]
    refine ⟨?_, ih h'⟩
    intro e
    apply hok hc2
    refine ⟨hm, ?_, ?_⟩
    · rw [← e]; decide
    · rw [← e]; decide

theorem unescape_no_slash {mode : Encoding} (hm : mode = encodeHost ∨ mode = encodeZone)
    {s t : GoString} (h : unescape s mode = .ok t) : '/' ∉ t := by
  unfold unescape at h
  cases hc : unescapeCheck mode s with
  | error e => simp [hc] at h
  | ok u =>
    simp only [hc, Except.ok.injEq] at h
    subst h
    exact unescapeBuild_no_slash mode hm s hc

theorem parseHost_no_slash {host t : GoString} (h : parseHost host = .ok t) : '/' ∉ t := by
  unfold parseHost at h
  repeat' split at h
  all_goals first
    | (simp at h; done)
    | exact unescape_no_slash (Or.inl rfl) h
    | skip
  rename_i host1 h1 _ host2 h2 _ host3 h3
  simp only [Except.ok.injEq] at h
  subst h
  have a1 := unescape_no_slash (Or.inl rfl) h1
  have a2 := unescape_no_slash (Or.inr rfl) h2
  have a3 := unescape_no_slash (Or.inl rfl) h3
  simp [a1, a2, a3]

theorem parseAuthority_no_slash {authority : GoString} {user : Option Userinfo} {host : GoString}
    (h : parseAuthority authority = .ok (user, host)) : '/' ∉ host := by
  unfold parseAuthority at h
  repeat' split at h
  all_goals first
    | (simp at h; done)
    | (simp only [Except.ok.injEq, Prod.mk.injEq] at h
       rw [← h.2]
       apply parseHost_no_slash
       assumption)

theorem parse_host_no_slash {rawURL : GoString} {u : URL} (h : parse rawURL = .ok u) :
    '/' ∉ u.Host := by
  unfold parse at h
  repeat' (first | split at h | (dsimp only at h; split at h))
  all_goals first
    | (simp at h; done)
    | (simp only [Except.ok.injEq] at h
       subst h
       first
         | (simp; done)
         | (apply parseAuthority_no_slash; assumption))

theorem Parse_ok {rawURL : GoString} {u : URL} (h : Parse rawURL = .ok u) :
    ∃ url, parse (cutByte '#' rawURL).1 = .ok url ∧
      u.Scheme = url.Scheme ∧ u.Host = url.Host ∧ u.Path = url.Path := by
  unfold Parse at h
  split at h
  · simp at h
  · rename_i url hp
    refine ⟨url, hp, ?_⟩
    split_ifs at h
    · simp only [Except.ok.injEq] at h; subst h; exact ⟨rfl, rfl, rfl⟩
    · split at h
      · simp at h
      · simp only [Except.ok.injEq] at h; subst h; exact ⟨rfl, rfl, rfl⟩

theorem Parse_host_no_slash {rawURL : GoString} {u : URL} (h : Parse rawURL = .ok u) :
    '/' ∉ u.Host := by
  obtain ⟨url, hp, _, hh, _⟩ := Parse_ok h
  rw [hh]
  exact parse_host_no_slash hp

theorem splitHostPort_subset (hostPort : GoString) (c : Char) (h : c ∈ splitHostPort hostPort) :
    c ∈ hostPort := by
  unfold splitHostPort at h
  have key : ∀ host : GoString, (∀ x, x ∈ host → x ∈ hostPort) →
      c ∈ (if (hasPrefix host ['['] && hasSuffix host [']']) = true then (host.drop 1).dropLast
        else host) → c ∈ hostPort := by
    intro host hsub hc
    split_ifs at hc
    · exact hsub c (List.mem_of_mem_drop (List.mem_of_mem_dropLast hc))
    · exact hsub c hc
  apply key _ _ h
  intro x hx
  split at hx
  · rename_i before after hcut
    split_ifs at hx
    · rw [cutLastByte_eq hcut]; simp [hx]
    · exact hx
  · exact hx

/-- A hostname never contains a slash. -/
theorem Hostname_no_slash {rawURL : GoString} {u : URL} (h : Parse rawURL = .ok u) :
    '/' ∉ u.Hostname :=
  fun hc => Parse_host_no_slash h (splitHostPort_subset u.Host '/' hc)

/-! ## The ledger -/

theorem runIsVisited_length (c : Crawler) (calls : List GoString) :
    (runIsVisited c calls).length = calls.length := by
  induction calls generalizing c with
  | nil => rfl
  | cons u us ih => simp [runIsVisited, ih]

theorem runIsVisited_get (c : Crawler) (calls : List GoString) (i : Nat) :
    (runIsVisited c calls)[i]? =
      (calls[i]?).map fun u => c.visited u || decide (u ∈ calls.take i) := by
  induction calls generalizing c i with
  | nil => simp [runIsVisited]
  | cons u us ih =>
    cases i with
    | zero => simp [runIsVisited, Crawler.IsVisited]
    | succ i =>
      simp only [runIsVisited, List.getElem?_cons_succ, ih, List.take_succ_cons]
      cases h : us[i]? with
      | none => simp
      | some v =>
        simp only [Option.map_some', Crawler.IsVisited, Option.some.injEq]
        by_cases hv : v = u
        · subst hv; simp
        · simp [hv]

theorem runIsVisited_count_false (c : Crawler) (calls : List GoString) (u : GoString) :
    (calls.zip (runIsVisited c calls)).count (u, false) =
      if c.visited u = false ∧ u ∈ calls then 1 else 0 := by
  induction calls generalizing c with
  | nil => simp [runIsVisited]
  | cons v vs ih =>
    simp only [runIsVisited, List.zip_cons_cons, List.count_cons, ih, Crawler.IsVisited]
    by_cases hv : v = u
    · subst hv
      by_cases hc : c.visited v = true
      · simp [hc]
      · have hc' : c.visited v = false := by simpa using hc
        simp [hc']
    · have hv' : ¬ u = v := fun h => hv h.symm
      by_cases hc : c.visited u = true
      · simp [hc, hv, hv']
      · have hc' : c.visited u = false := by simpa using hc
        simp [hc', hv, hv']

theorem runIsVisited_count_true (c : Crawler) (calls : List GoString) (u : GoString) :
    (calls.zip (runIsVisited c calls)).count (u, true) =
      if c.visited u = true then calls.count u else calls.count u - 1 := by
  induction calls generalizing c with
  | nil => simp [runIsVisited]
  | cons v vs ih =>
    simp only [runIsVisited, List.zip_cons_cons, List.count_cons, ih, Crawler.IsVisited]
    by_cases hv : v = u
    · subst hv
      by_cases hc : c.visited v = true
      · simp [hc]
      · have hc' : c.visited v = false := by simpa using hc
        simp [hc']
    · have hv' : ¬ u = v := fun h => hv h.symm
      by_cases hc : c.visited u = true
      · simp [hc, hv, hv']
      · have hc' : c.visited u = false := by simpa using hc
        simp [hc', hv, hv']

/-! ## Links, tasks and paths -/

theorem extractAttrs_of_slash {pageUrl : GoString} (h : '/' ∈ pageUrl) (attrs : List Attribute)
    (links : List GoString) : extractAttrs pageUrl attrs links = links := by
  induction attrs generalizing links with
  | nil => rfl
  | cons attr attrs ih =>
    unfold extractAttrs
    split_ifs with hk
    · split
      · rename_i u hu
        have hn := Hostname_no_slash hu
        have hne : ¬ u.Hostname = pageUrl := fun e => hn (e ▸ h)
        simp only [hne, if_false]
        exact ih links
      · exact ih links
    · exact ih links

theorem extractLoop_of_slash {pageUrl : GoString} (h : '/' ∈ pageUrl) (page : Page)
    (links : List GoString) : extractLoop pageUrl page links = links := by
  induction page generalizing links with
  | nil => rfl
  | cons token rest ih =>
    unfold extractLoop
    split_ifs
    · rfl
    · rw [extractAttrs_of_slash h]; exact ih links
    · exact ih links
    · exact ih links

theorem ExtractLinks_of_slash {pageUrl : GoString} (h : '/' ∈ pageUrl) (page : Page) :
    ExtractLinks pageUrl page = ([], none) := by
  unfold ExtractLinks
  rw [extractLoop_of_slash h]

/-- Every fetch of `Download` is a fetch of its own link. -/
theorem Download_log (w : World) (link destDir : GoString) (log : List Event) :
    ∃ added, (Download w link destDir log).2 = log ++ added ∧
      ∀ v, Event.httpGet v ∈ added → v = link := by
  unfold Download
  repeat' split
  all_goals first
    | exact ⟨[.httpGet link], rfl, by simp⟩
    | exact ⟨[.httpGet link, _], rfl, by simp⟩
    | exact ⟨[.httpGet link, _, _], rfl, by simp⟩
    | exact ⟨[.httpGet link, _, _, _], rfl, by simp⟩
    | exact ⟨[.httpGet link, _, _, _, _], rfl, by simp⟩

/-- What `Crawl` does when the page yields no link: nothing after the second
fetch. -/
theorem Crawl_of_no_links (w : World) (destDir url : GoString) (c : Crawler) (log : List Event)
    (fuel : Nat) (h : ∀ page, ExtractLinks url page = ([], none)) :
    Crawl w destDir (fuel + 1) url c log =
      some (
        if c.visited url = true then (none, (c.IsVisited url).2, log)
        else
          match (Download w url destDir log).1 with
          | some err => (some err, (c.IsVisited url).2, (Download w url destDir log).2)
          | none =>
            match w.httpGet (Download w url destDir log).2 url with
            | .error err =>
              (some err, (c.IsVisited url).2, (Download w url destDir log).2 ++ [.httpGet url])
            | .ok _ =>
              (none, (c.IsVisited url).2, (Download w url destDir log).2 ++ [.httpGet url])) := by
  rw [Crawl]
  by_cases hv : c.visited url = true
  · simp [Crawler.IsVisited, hv]
  · have hv' : (c.IsVisited url).1 = false := by simpa [Crawler.IsVisited] using hv
    simp only [hv', hv, if_false, Bool.false_eq_true]
    rcases hd : Download w url destDir log with ⟨e, log1⟩
    cases e with
    | some err => simp
    | none =>
      simp only
      cases hg : w.httpGet log1 url with
      | error err => simp
      | ok resp => simp [h, spawnAll]

theorem cutByte_cons_ne {sep c : Char} (h : c ≠ sep) (s : GoString) :
    cutByte sep (c :: s) = (c :: (cutByte sep s).1, (cutByte sep s).2.1, (cutByte sep s).2.2) := by
  simp [cutByte, h]

/-- A text that begins with a colon is no URL. -/
theorem Parse_colon (s : GoString) : ∃ t e, Parse (':' :: s) = .error (.urlError "parse".toList t e) ∧
    (e = .errorString "missing protocol scheme".toList ∨
     e = .errorString "net/url: invalid control character in URL".toList) := by
  have hc : (':' : Char) ≠ '#' := by decide
  unfold Parse
  rw [cutByte_cons_ne hc]
  simp only
  have hp : parse (':' :: (cutByte '#' s).1) =
      .error (.errorString "missing protocol scheme".toList) ∨
      parse (':' :: (cutByte '#' s).1) =
      .error (.errorString "net/url: invalid control character in URL".toList) := by
    unfold parse
    split_ifs with h1 h2
    · exact Or.inr rfl
    · simp at h2
    · left
      simp [getScheme, getSchemeLoop]
  rcases hp with hp | hp
  · exact ⟨_, _, by rw [hp], Or.inl rfl⟩
  · exact ⟨_, _, by rw [hp], Or.inr rfl⟩

theorem filter_sublist_filter_map {α : Type} (P : α → Bool) (f : α → α)
    (hf : ∀ a, P a = true → f a = a) (l : List α) :
    (l.filter P).Sublist ((l.map f).filter P) := by
  induction l with
  | nil => simp
  | cons a l ih =>
    by_cases ha : P a = true
    · have hfa : P (f a) = true := by rw [hf a ha]; exact ha
      simp only [List.filter_cons, ha, if_true, List.map_cons, hfa]
      rw [hf a ha]
      exact ih.cons₂ a
    · simp only [List.filter_cons, ha, List.map_cons, Bool.false_eq_true, if_false]
      split_ifs
      · exact ih.cons _
      · exact ih

theorem extractAttrs_eq (pageUrl : GoString) (attrs : List Attribute) (links : List GoString) :
    extractAttrs pageUrl attrs links =
      links ++ (((attrs.filter fun attr => attr.Key = "href".toList).map fun attr => attr.Val).map
        (rewriteLink pageUrl)).filter (inScope pageUrl) := by
  induction attrs generalizing links with
  | nil => simp [extractAttrs]
  | cons attr attrs ih =>
    unfold extractAttrs
    by_cases hk : attr.Key = "href".toList
    · simp only [hk, if_true, List.filter_cons, decide_True, List.map_cons]
      cases hp : Parse (rewriteLink pageUrl attr.Val) with
      | error e =>
        have hs : inScope pageUrl (rewriteLink pageUrl attr.Val) = false := by
          simp [inScope, hp]
        simp only [List.filter_cons, hs, Bool.false_eq_true, if_false]
        exact ih links
      | ok u =>
        by_cases hh : u.Hostname = pageUrl
        · have hs : inScope pageUrl (rewriteLink pageUrl attr.Val) = true := by
            simp [inScope, hp, hh]
          simp only [hh, if_true, List.filter_cons, hs]
          rw [ih]
          simp
        · have hs : inScope pageUrl (rewriteLink pageUrl attr.Val) = false := by
            simp [inScope, hp, hh]
          simp only [hh, if_false, List.filter_cons, hs, Bool.false_eq_true]
          exact ih links
    · simp only [hk, if_false, List.filter_cons, decide_False, Bool.false_eq_true]
      exact ih links

theorem extractLoop_eq (pageUrl : GoString) (page : Page) (links : List GoString) :
    extractLoop pageUrl page links =
      links ++ ((anchorHrefs page).map (rewriteLink pageUrl)).filter (inScope pageUrl) := by
  induction page generalizing links with
  | nil => simp [extractLoop, anchorHrefs]
  | cons token rest ih =>
    unfold extractLoop anchorHrefs
    by_cases he : token.Typ = .ErrorToken
    · simp [he]
    · simp only [he, if_false]
      by_cases ht : token.Typ = .StartTagToken ∨ token.Typ = .SelfClosingTagToken
      · by_cases hd : token.Data = ['a']
        · simp only [ht, hd, if_true, and_self]
          rw [ih, extractAttrs_eq]
          simp
        · simp only [ht, hd, if_true, if_false, and_false]
          exact ih links
      · simp only [ht, if_false, false_and]
        exact ih links

theorem rewriteLink_of_host {pageUrl link : GoString} (hne : pageUrl ≠ [])
    (h : inScope pageUrl link = true) : rewriteLink pageUrl link = link := by
  unfold inScope at h
  unfold rewriteLink
  cases hp : Parse link with
  | error e => rfl
  | ok u =>
    rw [hp] at h
    simp only [decide_eq_true_eq] at h
    have : ¬ u.Hostname = [] := fun e => hne (h ▸ e)
    simp [this]

theorem takeWhile_append_stop (p : Char → Bool) (s rest : GoString) (hs : ∀ x ∈ s, p x = true)
    (hr : rest = [] ∨ ∃ c r, rest = c :: r ∧ p c = false) :
    (s ++ rest).takeWhile p = s ∧ (s ++ rest).dropWhile p = rest := by
  induction s with
  | nil =>
    rcases hr with rfl | ⟨c, r, rfl, hc⟩
    · simp
    · simp [List.takeWhile, List.dropWhile, hc]
  | cons a s ih =>
    have ha : p a = true := hs a (List.mem_cons_self _ _)
    have ih' := ih (fun x hx => hs x (List.mem_cons_of_mem _ hx))
    simp [List.takeWhile, List.dropWhile, ha, ih'.1, ih'.2]

theorem cleanLoop_nil (rooted : Bool) (fuel : Nat) (out : GoString) (dd : Nat) :
    cleanLoop rooted fuel [] out dd = out := by
  cases fuel <;> simp [cleanLoop]

/-- One round of `path.Clean` on a plain segment copies the segment. -/
theorem cleanLoop_segment (rooted : Bool) (fuel : Nat) (s rest out : GoString) (dd : Nat)
    (hs : plainSegment s) (hr : rest = [] ∨ ∃ r, rest = '/' :: r) :
    cleanLoop rooted (fuel + 1) (s ++ rest) out dd =
      cleanLoop rooted fuel rest
        ((if (rooted = true ∧ out.length ≠ 1) ∨ ((!rooted) = true ∧ out.length ≠ 0)
          then out ++ ['/'] else out) ++ s) dd := by
  obtain ⟨hne, hslash, hdot, hdotdot⟩ := hs
  have hall : ∀ x ∈ s, (fun c : Char => decide (c ≠ '/')) x = true := by
    intro x hx
    simp only [ne_eq, decide_not, Bool.not_eq_true', decide_eq_false_iff_not]
    exact fun e => hslash (e ▸ hx)
  have hr' : rest = [] ∨ ∃ c r, rest = c :: r ∧ (fun c : Char => decide (c ≠ '/')) c = false := by
    rcases hr with h | ⟨r, h⟩
    · exact Or.inl h
    · exact Or.inr ⟨'/', r, h, by simp⟩
  have htd := takeWhile_append_stop (fun c : Char => decide (c ≠ '/')) s rest hall hr'
  cases s with
  | nil => exact absurd rfl hne
  | cons c cs =>
    have hc : c ≠ '/' := fun e => hslash (by simp [e])
    have h1 : ¬(c = '.' ∧ (cs ++ rest = [] ∨ (cs ++ rest).head? = some '/')) := by
      rintro ⟨rfl, h⟩
      cases cs with
      | nil => exact hdot rfl
      | cons d cs' =>
        have hd : d ≠ '/' := fun e => hslash (by simp [e])
        rcases h with h | h
        · simp at h
        · simp at h; exact hd h
    have h2 : ¬(c = '.' ∧ (cs ++ rest).head? = some '.' ∧
        ((cs ++ rest).tail = [] ∨ (cs ++ rest).tail.head? = some '/')) := by
      rintro ⟨rfl, hh, ht⟩
      cases cs with
      | nil => exact hdot rfl
      | cons d cs' =>
        simp only [List.cons_append, List.head?_cons, Option.some.injEq] at hh
        subst hh
        cases cs' with
        | nil => exact hdotdot rfl
        | cons e cs'' =>
          have he : e ≠ '/' := fun h => hslash (by simp [h])
          rcases ht with ht | ht
          · simp at ht
          · simp at ht; exact he ht
    rw [List.cons_append, cleanLoop]
    simp only [hc, if_false, h1, h2]
    rw [← List.cons_append, htd.1, htd.2]

theorem joinSlash_cons_cons (s s' : GoString) (t : List GoString) :
    joinSlash (s :: s' :: t) = s ++ '/' :: joinSlash (s' :: t) := rfl

theorem joinSlash_length_pos {segs : List GoString} (hne : segs ≠ [])
    (hs : ∀ s ∈ segs, plainSegment s) : 0 < (joinSlash segs).length := by
  cases segs with
  | nil => exact absurd rfl hne
  | cons s t =>
    have h1 : s ≠ [] := (hs s (List.mem_cons_self _ _)).1
    have : 0 < s.length := List.length_pos.mpr h1
    cases t with
    | nil => simpa [joinSlash] using this
    | cons s' t' => simp [joinSlash]

theorem joinSlash_append_single {segs : List GoString} (hne : segs ≠ []) (e : GoString) :
    joinSlash (segs ++ [e]) = joinSlash segs ++ '/' :: e := by
  induction segs with
  | nil => exact absurd rfl hne
  | cons s t ih =>
    cases t with
    | nil => simp [joinSlash]
    | cons s' t' =>
      have := ih (by simp)
      simp only [List.cons_append, joinSlash_cons_cons] at this ⊢
      rw [this]
      simp

theorem cleanLoop_segments (rooted : Bool) (segs : List GoString) (hne : segs ≠ [])
    (hs : ∀ s ∈ segs, plainSegment s) (fuel : Nat) (out : GoString) (dd : Nat)
    (hf : (joinSlash segs).length ≤ fuel) :
    cleanLoop rooted fuel (joinSlash segs) out dd = cleanSegments rooted out segs := by
  induction segs generalizing fuel out with
  | nil => exact absurd rfl hne
  | cons s t ih =>
    have hps : plainSegment s := hs s (List.mem_cons_self _ _)
    have hslen : 0 < s.length := List.length_pos.mpr hps.1
    cases t with
    | nil =>
      simp only [joinSlash] at hf ⊢
      obtain ⟨fuel', rfl⟩ : ∃ k, fuel = k + 1 := ⟨fuel - 1, by omega⟩
      have := cleanLoop_segment rooted fuel' s [] out dd hps (Or.inl rfl)
      rw [List.append_nil] at this
      rw [this, cleanLoop_nil]
      rfl
    | cons s' t' =>
      rw [joinSlash_cons_cons] at hf ⊢
      simp only [List.length_append, List.length_cons] at hf
      obtain ⟨fuel', rfl⟩ : ∃ k, fuel = k + 2 := ⟨fuel - 2, by omega⟩
      rw [cleanLoop_segment rooted (fuel' + 1) s _ out dd hps (Or.inr ⟨_, rfl⟩)]
      rw [cleanLoop]
      simp only [if_true]
      rw [ih (by simp) (fun x hx => hs x (List.mem_cons_of_mem _ hx)) fuel' _ (by omega)]
      rfl

theorem cleanSegments_unrooted (segs : List GoString) (hs : ∀ s ∈ segs, plainSegment s)
    (out : GoString) (hout : out ≠ []) (hne : segs ≠ []) :
    cleanSegments false out segs = out ++ '/' :: joinSlash segs := by
  induction segs generalizing out with
  | nil => exact absurd rfl hne
  | cons s t ih =>
    have hlen : out.length ≠ 0 := fun e => hout (List.length_eq_zero.mp e)
    cases t with
    | nil => simp [cleanSegments, joinSlash, hlen]
    | cons s' t' =>
      rw [cleanSegments]
      simp only [hlen, ne_eq, not_false_eq_true, and_true, Bool.not_false, or_true, if_true,
        Bool.false_eq_true, false_and]
      rw [ih (fun x hx => hs x (List.mem_cons_of_mem _ hx)) _ (by simp) (by simp)]
      simp [joinSlash_cons_cons]

theorem cleanSegments_rooted (segs : List GoString) (hs : ∀ s ∈ segs, plainSegment s)
    (out : GoString) (hout : 2 ≤ out.length) (hne : segs ≠ []) :
    cleanSegments true out segs = out ++ '/' :: joinSlash segs := by
  induction segs generalizing out with
  | nil => exact absurd rfl hne
  | cons s t ih =>
    have hlen : out.length ≠ 1 := by omega
    cases t with
    | nil => simp [cleanSegments, joinSlash, hlen]
    | cons s' t' =>
      rw [cleanSegments]
      simp only [hlen, ne_eq, not_false_eq_true, and_self, true_or, if_true]
      rw [ih (fun x hx => hs x (List.mem_cons_of_mem _ hx)) _
        (by simp only [List.length_append]; omega) (by simp)]
      simp [joinSlash_cons_cons]

/-- The function `path.Clean` leaves a path of plain segments as it is. -/
theorem pathClean_plainPath (rooted : Bool) (segs : List GoString) (hne : segs ≠ [])
    (hs : ∀ s ∈ segs, plainSegment s) :
    pathClean (plainPath rooted segs) = plainPath rooted segs := by
  have hpos := joinSlash_length_pos hne hs
  have hjne : joinSlash segs ≠ [] := List.length_pos.mp hpos
  obtain ⟨s, t, rfl⟩ : ∃ s t, segs = s :: t := by
    cases segs with
    | nil => exact absurd rfl hne
    | cons s t => exact ⟨s, t, rfl⟩
  have hps : plainSegment s := hs s (List.mem_cons_self _ _)
  have hslen : 0 < s.length := List.length_pos.mpr hps.1
  have hfirst : ∃ c r, joinSlash (s :: t) = c :: r ∧ c ≠ '/' := by
    cases hs0 : s with
    | nil => exact absurd hs0 hps.1
    | cons c cs =>
      have hc : c ≠ '/' := fun e => hps.2.1 (by rw [hs0]; simp [e])
      cases t with
      | nil => exact ⟨c, cs, by simp [joinSlash], hc⟩
      | cons s' t' => exact ⟨c, _, by rw [joinSlash_cons_cons]; rfl, hc⟩
  cases rooted with
  | true =>
    simp only [plainPath, if_true, List.singleton_append]
    unfold pathClean
    simp only [List.cons_ne_nil, if_false, List.head?_cons, decide_True, if_true, List.drop_succ_cons,
      List.drop_zero, List.length_cons]
    rw [cleanLoop_segments true (s :: t) hne hs _ _ _ (by omega)]
    rw [cleanSegments]
    simp only [List.length_singleton, ne_eq, not_true_eq_false, and_false, Bool.not_true,
      Bool.false_eq_true, false_and, or_self, if_false]
    cases t with
    | nil => simp [cleanSegments, joinSlash]
    | cons s' t' =>
      rw [cleanSegments_rooted _ (fun x hx => hs x (List.mem_cons_of_mem _ hx)) _
        (by simp only [List.length_append, List.length_singleton]; omega) (by simp)]
      simp [joinSlash_cons_cons]
  | false =>
    obtain ⟨c, r, hcr, hc⟩ := hfirst
    simp only [plainPath, Bool.false_eq_true, if_false, List.nil_append]
    unfold pathClean
    have hhead : ¬ ((joinSlash (s :: t)).head? = some '/') := by
      rw [hcr]; simp [hc]
    simp only [hjne, if_false, hhead, decide_False, Bool.false_eq_true]
    rw [cleanLoop_segments false (s :: t) hne hs _ _ _ (le_refl _)]
    rw [cleanSegments]
    simp only [List.length_nil, ne_eq, not_true_eq_false, and_false, or_self, if_false,
      List.nil_append, Bool.false_eq_true, false_and]
    cases t with
    | nil => simp [cleanSegments, joinSlash, hps.1]
    | cons s' t' =>
      rw [cleanSegments_unrooted _ (fun x hx => hs x (List.mem_cons_of_mem _ hx)) _ hps.1 (by simp)]
      simp [joinSlash_cons_cons]

/-- The function `path.Join` on a path of plain segments and one more plain
segment puts one slash between them. -/
theorem pathJoin_plainPath (rooted : Bool) (segs : List GoString) (hne : segs ≠ [])
    (hs : ∀ s ∈ segs, plainSegment s) (e : GoString) (he : plainSegment e) :
    pathJoin [plainPath rooted segs, e] = plainPath rooted segs ++ '/' :: e ∧
    plainPath rooted segs ++ '/' :: e = plainPath rooted (segs ++ [e]) := by
  have hpos := joinSlash_length_pos hne hs
  have hlen : 0 < (plainPath rooted segs).length := by
    simp only [plainPath, List.length_append]; omega
  have hpne : plainPath rooted segs ≠ [] := List.length_pos.mp hlen
  have h2 : plainPath rooted segs ++ '/' :: e = plainPath rooted (segs ++ [e]) := by
    simp [plainPath, joinSlash_append_single hne]
  refine ⟨?_, h2⟩
  unfold pathJoin
  have hsum : ¬ (List.map List.length [plainPath rooted segs, e]).sum = 0 := by
    simp only [List.map_cons, List.map_nil, List.sum_cons, List.sum_nil]; omega
  simp only [hsum, if_false]
  have hbuf : joinBuf [plainPath rooted segs, e] [] = plainPath rooted segs ++ '/' :: e := by
    simp [joinBuf, hpne, hlen]
  rw [hbuf, h2]
  apply pathClean_plainPath
  · simp
  · intro x hx
    rcases List.mem_append.mp hx with h | h
    · exact hs x h
    · rw [List.mem_singleton.mp h]; exact he

theorem cutLastByte_after {sep : Char} {s a b : GoString} (h : cutLastByte sep s = some (a, b)) :
    sep ∉ b := by
  induction s generalizing a b with
  | nil => simp [cutLastByte] at h
  | cons c cs ih =>
    simp only [cutLastByte] at h
    cases hc : cutLastByte sep cs with
    | some p =>
      obtain ⟨a', b'⟩ := p
      rw [hc] at h
      simp only [Option.some.injEq, Prod.mk.injEq] at h
      obtain ⟨rfl, rfl⟩ := h
      exact ih hc
    | none =>
      rw [hc] at h
      have hnone : ∀ t : GoString, cutLastByte sep t = none → sep ∉ t := by
        intro t
        induction t with
        | nil => simp
        | cons x xs ihx =>
          intro hx
          simp only [cutLastByte] at hx
          cases hxs : cutLastByte sep xs with
          | some q => rw [hxs] at hx; simp at hx
          | none =>
            rw [hxs] at hx
            by_cases hxe : x = sep
            · simp [hxe] at hx
            · simp only [List.mem_cons, not_or]
              exact ⟨fun e => hxe e.symm, ihx hxs⟩
      by_cases hcs : c = sep
      · simp only [hcs, if_true, Option.some.injEq, Prod.mk.injEq] at h
        obtain ⟨rfl, rfl⟩ := h
        exact hnone _ hc
      · simp [hcs] at h

theorem cutLastByte_none {sep : Char} {s : GoString} (h : cutLastByte sep s = none) :
    sep ∉ s := by
  induction s with
  | nil => simp
  | cons x xs ih =>
    simp only [cutLastByte] at h
    cases hxs : cutLastByte sep xs with
    | some q => rw [hxs] at h; simp at h
    | none =>
      rw [hxs] at h
      by_cases hxe : x = sep
      · simp [hxe] at h
      · simp only [List.mem_cons, not_or]
        exact ⟨fun e => hxe e.symm, ih hxs⟩

theorem strip_of_not_hasSuffix {path : GoString} (h : hasSuffix path ['/'] = false) :
    (path.reverse.dropWhile (· = '/')).reverse = path := by
  unfold hasSuffix List.isSuffixOf at h
  cases hr : path.reverse with
  | nil =>
    have : path = [] := by simpa using hr
    subst this
    simp
  | cons x xs =>
    rw [hr] at h
    have hx : ¬ x = '/' := by
      intro e
      subst e
      simp [List.isPrefixOf] at h
    simp only [List.dropWhile, hx, decide_False]
    rw [← hr, List.reverse_reverse]

/-- The function `path.Base` on a path that is not empty and does not end in
a slash: the part of the path after its last slash, the whole path when it
has none. -/
theorem pathBase_spec {path : GoString} (hne : path ≠ []) (h : hasSuffix path ['/'] = false) :
    ∃ pre, path = pre ++ pathBase path ∧ '/' ∉ pathBase path ∧ pathBase path ≠ [] ∧
      (pre = [] ∨ pre.getLast? = some '/') := by
  unfold pathBase
  simp only [hne, if_false, strip_of_not_hasSuffix h]
  cases hc : cutLastByte '/' path with
  | none =>
    simp only [hne, if_false]
    exact ⟨[], rfl, cutLastByte_none hc, hne, Or.inl rfl⟩
  | some p =>
    obtain ⟨a, b⟩ := p
    have heq := cutLastByte_eq hc
    have hb : b ≠ [] := by
      intro e
      subst e
      rw [heq] at h
      simp [hasSuffix, List.isSuffixOf, List.isPrefixOf] at h
    simp only [hb, if_false]
    refine ⟨a ++ ['/'], by simp [heq], cutLastByte_after hc, hb, Or.inr (by simp)⟩

/-- The effects of `Download` for a link that parses: one directory and one
file, at the paths the URL gives. -/
theorem Download_effects (w : World) (link destDir : GoString) (log : List Event) (u : URL)
    (hp : Parse link = .ok u) :
    ∃ added, (Download w link destDir log).2 = log ++ added ∧
      (∀ d, Event.mkdirAll d ∈ added → d = Download.dir destDir u) ∧
      (∀ p, Event.create p ∈ added → p = Download.filepath destDir u) ∧
      (∀ p b, Event.copy p b ∈ added → p = Download.filepath destDir u) ∧
      ((Download w link destDir log).1 = none →
        Event.mkdirAll (Download.dir destDir u) ∈ added ∧
        Event.create (Download.filepath destDir u) ∈ added ∧
        ∃ b, Event.copy (Download.filepath destDir u) b ∈ added) := by
  unfold Download
  simp only [hp]
  repeat' split
  all_goals first
    | exact ⟨[.httpGet link], rfl, by simp⟩
    | exact ⟨[.httpGet link, _], rfl, by simp⟩
    | exact ⟨[.httpGet link, _, _], rfl, by simp⟩
    | exact ⟨[.httpGet link, _, _, _], rfl, by simp⟩
    | exact ⟨[.httpGet link, _, _, _, _], rfl, by simp⟩

/-! ## The claims -/

/-- C1: from `NewCrawler()`, in every sequence of `IsVisited` calls the call at
position `i` returns `true` exactly when its URL occurs at an earlier position;
so for every URL `u` of the sequence `false` is returned exactly once (by the
first call on `u`) and `true` by each of the other `N - 1` calls on `u`,
whatever calls on other URLs are interleaved. -/
theorem IsVisited_check_and_mark (calls : List GoString) :
    (runIsVisited NewCrawler calls).length = calls.length ∧
    (∀ i : Nat, (runIsVisited NewCrawler calls)[i]? =
      (calls[i]?).map fun u => decide (u ∈ calls.take i)) ∧
    (∀ u : GoString,
      (calls.zip (runIsVisited NewCrawler calls)).count (u, false) = (if u ∈ calls then 1 else 0) ∧
      (calls.zip (runIsVisited NewCrawler calls)).count (u, true) = calls.count u - 1) := by
  refine ⟨runIsVisited_length _ _, fun i => ?_, fun u => ⟨?_, ?_⟩⟩
  · rw [runIsVisited_get]; simp [NewCrawler]
  · rw [runIsVisited_count_false]; simp [NewCrawler]
  · rw [runIsVisited_count_true]; simp [NewCrawler]

/-- C2: on the page of the scope example, fetched from `example.com`,
`ExtractLinks` yields one link only, `https://example.com/b`: the link `/a` is
rewritten to `://example.com/a`, which `url.Parse` rejects, so the rewritten
form of `/a` is not among the links, where C2 expects two links. -/
theorem ExtractLinks_scope_example :
    ExtractLinks "example.com".toList scopePage = (["https://example.com/b".toList], none) ∧
    anchorHrefs scopePage =
      ["/a".toList, "https://example.com/b".toList, "https://other.com/c".toList,
        "#frag".toList] ∧
    rewriteLink "example.com".toList "/a".toList = "://example.com/a".toList ∧
    Parse "://example.com/a".toList =
      .error (.urlError "parse".toList "://example.com/a".toList
        (.errorString "missing protocol scheme".toList)) := by
  decide

/-- C3: in the web where `http://h/a` and `http://h/b` answer 200 and link to
each other, `Crawl` on `http://h/a` returns without error for every bound of
at least one, archives `http://h/a` once and never fetches or archives
`http://h/b`. -/
theorem Crawl_cycle_archives_seed_only (fuel : Nat) :
    anchorHrefs (cycleWorld.tokenize "A".toList) = ["http://h/b".toList] ∧
    anchorHrefs (cycleWorld.tokenize "B".toList) = ["http://h/a".toList] ∧
    cycleWorld.httpGet [] "http://h/b".toList = .ok ⟨200, "200 OK".toList, "B".toList⟩ ∧
    (Crawl cycleWorld "out".toList (fuel + 1) "http://h/a".toList NewCrawler []).map
        (fun r => (r.1, r.2.2)) =
      some (none,
        [.httpGet "http://h/a".toList, .mkdirAll "out/h".toList, .create "out/h/a".toList,
         .copy "out/h/a".toList "A".toList, .print "Downloaded: http://h/a\n".toList,
         .httpGet "http://h/a".toList]) := by
  refine ⟨by decide, by decide, by decide, ?_⟩
  rw [Crawl_of_no_links _ _ _ _ _ _ (fun page => ExtractLinks_of_slash (by decide) page)]
  decide

/-- C5: for a URL that is not in the ledger and whose GET answers a status
other than 200, `Download` returns the error `HTTP status: <status text>`
after the GET alone (no directory, no file), and `Crawl` returns that error
with the same effects: no second fetch, and no task spawned (the ledger holds
the URL and nothing more). -/
theorem non200_is_fatal (w : World) (link destDir : GoString) (c : Crawler) (log : List Event)
    (fuel : Nat) (resp : Response) (hv : c.visited link = false)
    (hg : w.httpGet log link = .ok resp) (hs : resp.StatusCode ≠ 200) :
    Download w link destDir log =
      (some (.errorString ("HTTP status: ".toList ++ resp.Status)), log ++ [.httpGet link]) ∧
    Crawl w destDir (fuel + 1) link c log =
      some (some (.errorString ("HTTP status: ".toList ++ resp.Status)),
        (c.IsVisited link).2, log ++ [.httpGet link]) := by
  have hd : Download w link destDir log =
      (some (.errorString ("HTTP status: ".toList ++ resp.Status)), log ++ [.httpGet link]) := by
    unfold Download
    rw [hg]
    simp [hs]
  refine ⟨hd, ?_⟩
  rw [Crawl]
  simp [Crawler.IsVisited, hv, hd]

/-- C5, an instance: `http://h/x` answers 404 in `brokenChildWorld`. -/
theorem non200_is_fatal_witness :
    NewCrawler.visited "http://h/x".toList = false ∧
    brokenChildWorld.httpGet [] "http://h/x".toList = .ok ⟨404, "404 Not Found".toList, []⟩ ∧
    (404 : Nat) ≠ 200 ∧
    Download brokenChildWorld "http://h/x".toList "out".toList [] =
      (some (.errorString ("HTTP status: ".toList ++ "404 Not Found".toList)),
        [] ++ [.httpGet "http://h/x".toList]) ∧
    Crawl brokenChildWorld "out".toList (0 + 1) "http://h/x".toList NewCrawler [] =
      some (some (.errorString ("HTTP status: ".toList ++ "404 Not Found".toList)),
        (NewCrawler.IsVisited "http://h/x".toList).2, [] ++ [.httpGet "http://h/x".toList]) :=
  ⟨rfl, rfl, by decide,
    non200_is_fatal brokenChildWorld "http://h/x".toList "out".toList NewCrawler [] 0
      ⟨404, "404 Not Found".toList, []⟩ rfl rfl (by decide)⟩

/-- C6: for every URL that parses, the file name `Download` uses is
`index.html` when the path of the URL is empty or ends in `/`, and otherwise
the final segment of the path: the path is some prefix, empty or ending in
`/`, followed by the file name, and the file name is not empty and holds no
`/`.  Every file `Download` creates is at `path.Join(dir, filename)`.  So
`https://h/` and `https://h/docs/` give `index.html` and
`https://h/docs/page.html` gives `page.html`. -/
theorem Download_filename_rule (w : World) (link destDir : GoString) (log : List Event)
    (u : URL) (hp : Parse link = .ok u) :
    ((u.Path = [] ∨ hasSuffix u.Path ['/'] = true) →
      Download.filename u = "index.html".toList) ∧
    (¬(u.Path = [] ∨ hasSuffix u.Path ['/'] = true) →
      ∃ pre, u.Path = pre ++ Download.filename u ∧ '/' ∉ Download.filename u ∧
        Download.filename u ≠ [] ∧ (pre = [] ∨ pre.getLast? = some '/')) ∧
    (∃ added, (Download w link destDir log).2 = log ++ added ∧
      ∀ p, Event.create p ∈ added →
        p = pathJoin [pathJoin [destDir, u.Hostname], Download.filename u]) ∧
    (Parse "https://h/".toList).map Download.filename = .ok "index.html".toList ∧
    (Parse "https://h/docs/".toList).map Download.filename = .ok "index.html".toList ∧
    (Parse "https://h/docs/page.html".toList).map Download.filename = .ok "page.html".toList := by
  refine ⟨?_, ?_, ?_, by decide, by decide, by decide⟩
  · intro h
    unfold Download.filename
    simp only [h, if_true]
  · intro h
    have h1 : u.Path ≠ [] := fun e => h (Or.inl e)
    have h2 : hasSuffix u.Path ['/'] = false := by
      cases hb : hasSuffix u.Path ['/'] with
      | false => rfl
      | true => exact absurd (Or.inr hb) h
    unfold Download.filename
    simp only [h, if_false]
    exact pathBase_spec h1 h2
  · obtain ⟨added, hadd, _, hc, _⟩ := Download_effects w link destDir log u hp
    exact ⟨added, hadd, hc⟩

/-- C6, an instance: `https://h/docs/page.html` gives `page.html`. -/
theorem Download_filename_rule_witness :
    Parse "https://h/docs/page.html".toList =
      .ok { Scheme := "https".toList, Host := "h".toList, Path := "/docs/page.html".toList } ∧
    ∃ pre, "/docs/page.html".toList = pre ++ "page.html".toList ∧ '/' ∉ "page.html".toList ∧
      "page.html".toList ≠ [] ∧ (pre = [] ∨ pre.getLast? = some '/') :=
  ⟨by decide,
    (Download_filename_rule cycleWorld "https://h/docs/page.html".toList "out".toList []
      { Scheme := "https".toList, Host := "h".toList, Path := "/docs/page.html".toList }
      (by decide)).2.1 (by decide)⟩

/-- C7, the claim fails for the empty destination root: the directory of
`https://sub.example.com/x` is then `sub.example.com`, not the root followed
by a separator and the host, which would be `/sub.example.com`. -/
theorem Download_dir_empty_root :
    (Parse "https://sub.example.com/x".toList).map (fun u => (u.Hostname, Download.dir [] u)) =
      .ok ("sub.example.com".toList, "sub.example.com".toList) ∧
    "sub.example.com".toList ≠ [] ++ '/' :: "sub.example.com".toList := by
  decide

/-- C7, amended: for every URL that parses and every destination root, the
directory `Download` creates is `path.Join(destRoot, host)` and the file it
creates and writes is `path.Join(dir, filename)`, where `path.Join` drops
empty elements and cleans the joined path.  When the destination root is a
path of plain segments (relative or rooted; no empty segment, no `.`, no `..`)
and the host is not empty, `.` or `..`, the directory is the destination root
followed by a separator and the host, and when the file name is neither `.`
nor `..` the file is at that directory followed by a separator and the file
name.  So `https://sub.example.com/x` with root `out` gives the directory
`out/sub.example.com` and the file `out/sub.example.com/x`. -/
theorem Download_dir_rule (w : World) (link destDir : GoString) (log : List Event) (u : URL)
    (hp : Parse link = .ok u) :
    (∃ added, (Download w link destDir log).2 = log ++ added ∧
      (∀ d, Event.mkdirAll d ∈ added → d = pathJoin [destDir, u.Hostname]) ∧
      (∀ p, Event.create p ∈ added →
        p = pathJoin [pathJoin [destDir, u.Hostname], Download.filename u]) ∧
      (∀ p b, Event.copy p b ∈ added →
        p = pathJoin [pathJoin [destDir, u.Hostname], Download.filename u]) ∧
      ((Download w link destDir log).1 = none →
        Event.mkdirAll (pathJoin [destDir, u.Hostname]) ∈ added ∧
        Event.create (pathJoin [pathJoin [destDir, u.Hostname], Download.filename u]) ∈ added)) ∧
    (∀ (rooted : Bool) (segs : List GoString), segs ≠ [] → (∀ s ∈ segs, plainSegment s) →
      destDir = plainPath rooted segs →
      u.Hostname ≠ [] → u.Hostname ≠ ['.'] → u.Hostname ≠ ['.', '.'] →
        Download.dir destDir u = destDir ++ '/' :: u.Hostname ∧
        (Download.filename u ≠ ['.'] → Download.filename u ≠ ['.', '.'] →
          Download.filepath destDir u =
            destDir ++ '/' :: u.Hostname ++ '/' :: Download.filename u)) ∧
    (Parse "https://sub.example.com/x".toList).map
        (fun v => (Download.dir "out".toList v, Download.filepath "out".toList v)) =
      .ok ("out/sub.example.com".toList, "out/sub.example.com/x".toList) := by
  refine ⟨?_, ?_, by decide⟩
  · obtain ⟨added, hadd, h1, h2, h3, h4⟩ := Download_effects w link destDir log u hp
    exact ⟨added, hadd, h1, h2, h3, fun h => ⟨(h4 h).1, (h4 h).2.1⟩⟩
  · intro rooted segs hne hs hd hh1 hh2 hh3
    have hhost : plainSegment u.Hostname := ⟨hh1, Hostname_no_slash hp, hh2, hh3⟩
    have hj := pathJoin_plainPath rooted segs hne hs u.Hostname hhost
    have hdir : Download.dir destDir u = destDir ++ '/' :: u.Hostname := by
      unfold Download.dir
      rw [hd]
      exact hj.1
    refine ⟨hdir, ?_⟩
    intro hf1 hf2
    have hfile : plainSegment (Download.filename u) := by
      by_cases hc : u.Path = [] ∨ hasSuffix u.Path ['/'] = true
      · have : Download.filename u = "index.html".toList := by
          unfold Download.filename
          simp only [hc, if_true]
        rw [this]
        decide
      · have h1 : u.Path ≠ [] := fun e => hc (Or.inl e)
        have h2 : hasSuffix u.Path ['/'] = false := by
          cases hb : hasSuffix u.Path ['/'] with
          | false => rfl
          | true => exact absurd (Or.inr hb) hc
        obtain ⟨pre, _, hns, hnn, _⟩ := pathBase_spec h1 h2
        have : Download.filename u = pathBase u.Path := by
          unfold Download.filename
          simp only [hc, if_false]
        rw [this] at hf1 hf2 ⊢
        exact ⟨hnn, hns, hf1, hf2⟩
    unfold Download.filepath
    rw [hdir, hd, hj.2]
    have hj2 := pathJoin_plainPath rooted (segs ++ [u.Hostname]) (by simp)
      (by
        intro x hx
        rcases List.mem_append.mp hx with h | h
        · exact hs x h
        · rw [List.mem_singleton.mp h]; exact hhost)
      (Download.filename u) hfile
    rw [hj2.1]

/-- C7, an instance: `https://sub.example.com/x` with the root `out`. -/
theorem Download_dir_rule_witness :
    Parse "https://sub.example.com/x".toList =
      .ok { Scheme := "https".toList, Host := "sub.example.com".toList, Path := "/x".toList } ∧
    Download.dir "out".toList
        { Scheme := "https".toList, Host := "sub.example.com".toList, Path := "/x".toList } =
      "out".toList ++ '/' :: "sub.example.com".toList :=
  ⟨by decide,
    ((Download_dir_rule cycleWorld "https://sub.example.com/x".toList "out".toList []
      { Scheme := "https".toList, Host := "sub.example.com".toList, Path := "/x".toList }
      (by decide)).2.1 false ["out".toList] (by decide) (by decide) (by decide)
      (by decide) (by decide) (by decide)).1⟩

/-- C8, the claim fails for the empty page host: the absolute `href`
`mailto:x` has the empty hostname, equal to the page host, and is returned
rewritten to `mailto://`, not unchanged. -/
theorem ExtractLinks_empty_host_rewrites :
    (Parse "mailto:x".toList).map (fun u => (u.Scheme, u.Hostname)) = .ok ("mailto".toList, []) ∧
    ExtractLinks [] [anchor "mailto:x".toList] = (["mailto://".toList], none) := by
  decide

/-- C8, amended: for every page host and every token stream the result of
`ExtractLinks` is, in document order, the list of the candidate links (the
`href` values of the `a` tags after the optional rewrite) that parse as a URL
whose hostname is the page host; so every returned link parses with that
hostname; and when the page host is not empty, the `href` values whose
hostname is the page host are returned unchanged, in document order. -/
theorem ExtractLinks_same_host_rule (pageHost : GoString) (page : Page) :
    ExtractLinks pageHost page =
      (((anchorHrefs page).map (rewriteLink pageHost)).filter (inScope pageHost), none) ∧
    (∀ link ∈ (ExtractLinks pageHost page).1, ∃ u, Parse link = .ok u ∧ u.Hostname = pageHost) ∧
    (pageHost ≠ [] →
      ((anchorHrefs page).filter (inScope pageHost)).Sublist (ExtractLinks pageHost page).1) := by
  have he : ExtractLinks pageHost page =
      (((anchorHrefs page).map (rewriteLink pageHost)).filter (inScope pageHost), none) := by
    unfold ExtractLinks
    rw [extractLoop_eq]
    simp
  refine ⟨he, ?_, ?_⟩
  · intro link hl
    rw [he] at hl
    have hs := (List.mem_filter.mp hl).2
    unfold inScope at hs
    cases hp : Parse link with
    | error e => simp [hp] at hs
    | ok u =>
      rw [hp] at hs
      exact ⟨u, rfl, by simpa using hs⟩
  · intro hne
    rw [he]
    exact filter_sublist_filter_map _ _ (fun a ha => rewriteLink_of_host hne ha) _

/-- C8, an instance: the page of the scope example on `example.com`. -/
theorem ExtractLinks_same_host_rule_witness :
    "example.com".toList ≠ [] ∧
    ((anchorHrefs scopePage).filter (inScope "example.com".toList)).Sublist
      (ExtractLinks "example.com".toList scopePage).1 :=
  ⟨by decide, (ExtractLinks_same_host_rule "example.com".toList scopePage).2.2 (by decide)⟩

/-- C9: `Crawl` passes the URL of the page as the first argument of
`ExtractLinks` and a hostname never contains `/`; so for every page URL that
contains `/` and every page, `ExtractLinks` returns the empty list, and `Crawl`
on such a URL returns after its own steps: it marks its URL alone in the
ledger, spawns no task, and every fetch it makes is a fetch of its own URL. -/
theorem Crawl_full_url_follows_nothing (w : World) (destDir url : GoString) (c : Crawler)
    (log : List Event) (fuel : Nat) (page : Page) (h : '/' ∈ url) :
    ExtractLinks url page = ([], none) ∧
    Crawl w destDir (fuel + 1) url c log =
      some (
        if c.visited url = true then (none, (c.IsVisited url).2, log)
        else
          match (Download w url destDir log).1 with
          | some err => (some err, (c.IsVisited url).2, (Download w url destDir log).2)
          | none =>
            match w.httpGet (Download w url destDir log).2 url with
            | .error err =>
              (some err, (c.IsVisited url).2, (Download w url destDir log).2 ++ [.httpGet url])
            | .ok _ =>
              (none, (c.IsVisited url).2, (Download w url destDir log).2 ++ [.httpGet url])) ∧
    ∃ r added, Crawl w destDir (fuel + 1) url c log = some r ∧
      r.2.1 = (c.IsVisited url).2 ∧ r.2.2 = log ++ added ∧
      ∀ v, Event.httpGet v ∈ added → v = url := by
  have hno : ∀ page, ExtractLinks url page = ([], none) := fun page => ExtractLinks_of_slash h page
  refine ⟨hno page, Crawl_of_no_links w destDir url c log fuel hno, ?_⟩
  rw [Crawl_of_no_links w destDir url c log fuel hno]
  obtain ⟨added, hadd, hget⟩ := Download_log w url destDir log
  by_cases hv : c.visited url = true
  · exact ⟨_, [], rfl, by simp [hv], by simp [hv], by simp⟩
  · simp only [hv, if_false, Bool.false_eq_true]
    cases hd : (Download w url destDir log).1 with
    | some err => exact ⟨_, added, rfl, rfl, hadd, hget⟩
    | none =>
      simp only
      cases hg : w.httpGet (Download w url destDir log).2 url with
      | error err =>
        refine ⟨_, added ++ [.httpGet url], rfl, rfl, by simp [hadd], ?_⟩
        intro v hv'
        rcases List.mem_append.mp hv' with h1 | h1
        · exact hget v h1
        · simpa using h1
      | ok resp =>
        refine ⟨_, added ++ [.httpGet url], rfl, rfl, by simp [hadd], ?_⟩
        intro v hv'
        rcases List.mem_append.mp hv' with h1 | h1
        · exact hget v h1
        · simpa using h1

/-- C9, an instance: the page `http://h/a` of `cycleWorld`. -/
theorem Crawl_full_url_follows_nothing_witness :
    '/' ∈ "http://h/a".toList ∧
    ExtractLinks "http://h/a".toList (cycleWorld.tokenize "A".toList) = ([], none) :=
  ⟨by decide,
    (Crawl_full_url_follows_nothing cycleWorld "out".toList "http://h/a".toList NewCrawler [] 0
      (cycleWorld.tokenize "A".toList) (by decide)).1⟩

/-- C10, the claim fails for the empty page URL: the `href` `%23x` parses with
an empty scheme and an empty hostname, its path `#x` begins with `#`, so it is
not rewritten, and it is returned as a link. -/
theorem ExtractLinks_escaped_hash_followed :
    (Parse "%23x".toList).map (fun u => (u.Scheme, u.Hostname, u.Path)) = .ok ([], [], "#x".toList) ∧
    ExtractLinks [] [anchor "%23x".toList] = (["%23x".toList], none) := by
  decide

/-- C10, amended: an `href` that parses with an empty scheme and an empty
hostname and whose path does not begin with `#` is rewritten to a text that
begins with `://`, which `url.Parse` rejects (missing protocol scheme, or
invalid control character), so it contributes no link, for every page URL;
when its path begins with `#` it is not rewritten and contributes itself as a
link when the page URL is empty, and no link otherwise. -/
theorem relative_href_not_followed (pageUrl href ns : GoString) (u : URL)
    (attrs : List Attribute) (links : List GoString)
    (hp : Parse href = .ok u) (hs : u.Scheme = []) (hh : u.Hostname = []) :
    (hasPrefix u.Path ['#'] = false →
      rewriteLink pageUrl href = "://".toList ++ pageUrl ++ u.Path ∧
      (∃ t e, Parse (rewriteLink pageUrl href) = .error (.urlError "parse".toList t e) ∧
        (e = .errorString "missing protocol scheme".toList ∨
         e = .errorString "net/url: invalid control character in URL".toList)) ∧
      extractAttrs pageUrl ({ Namespace := ns, Key := "href".toList, Val := href } :: attrs) links =
        extractAttrs pageUrl attrs links) ∧
    (hasPrefix u.Path ['#'] = true →
      rewriteLink pageUrl href = href ∧
      extractAttrs pageUrl ({ Namespace := ns, Key := "href".toList, Val := href } :: attrs) links =
        extractAttrs pageUrl attrs (if pageUrl = [] then links ++ [href] else links)) := by
  constructor
  · intro hpath
    have hr : rewriteLink pageUrl href = "://".toList ++ pageUrl ++ u.Path := by
      unfold rewriteLink
      rw [hp]
      simp [hs, hh, hpath]
    obtain ⟨t, e, he, hor⟩ := Parse_colon ("//".toList ++ pageUrl ++ u.Path)
    have he' : Parse (rewriteLink pageUrl href) = .error (.urlError "parse".toList t e) := by
      rw [hr]; exact he
    refine ⟨hr, ⟨t, e, he', hor⟩, ?_⟩
    rw [extractAttrs]
    simp [he']
  · intro hpath
    have hr : rewriteLink pageUrl href = href := by
      unfold rewriteLink
      rw [hp]
      simp [hpath]
    refine ⟨hr, ?_⟩
    rw [extractAttrs]
    simp only [hr, hp, hh, if_true]
    by_cases hu : pageUrl = []
    · simp [hu]
    · have : ¬ ([] : GoString) = pageUrl := fun e => hu e.symm
      simp [hu, this]

/-- C10, an instance: the `href` `/a` on a page of `example.com`. -/
theorem relative_href_not_followed_witness :
    Parse "/a".toList = .ok { Path := "/a".toList } ∧
    rewriteLink "example.com".toList "/a".toList =
      "://".toList ++ "example.com".toList ++ "/a".toList ∧
    extractAttrs "example.com".toList [{ Namespace := [], Key := "href".toList, Val := "/a".toList }] []
      = extractAttrs "example.com".toList [] [] :=
  ⟨by decide,
    ((relative_href_not_followed "example.com".toList "/a".toList [] { Path := "/a".toList } [] []
      (by decide) rfl (by decide)).1 (by decide)).1,
    ((relative_href_not_followed "example.com".toList "/a".toList [] { Path := "/a".toList } [] []
      (by decide) rfl (by decide)).1 (by decide)).2.2⟩

end CrawlerTest
